import Mathlib

/-!
Shallow embedding of the parsing core of cargo-testdox (src/lib.rs).

Strings are modelled as lists of characters (`Str := List Char`); the Rust
`str` methods used by the source (`strip_prefix`, `split_once`,
`rsplit_once`, `contains`, `starts_with`, `lines`, `split_whitespace`,
`replace`, `trim`, `split`, `join`) are given as executable Lean functions
with the same semantics.  The `BTreeMap` used by `parse_test_results` is
modelled as a key-sorted association list with overwrite-on-insert
(`sortedInsert`), and the `HashMap` used by `parse_test_failures` as an
association list with prepend-insert and first-match lookup (only `get`
is ever used on it).  Fallible Rust functions (`Option` / `anyhow::Result`)
become `Option` / `Except`.
-/

namespace Testdox

abbrev Str := List Char

def str (s : String) : Str := s.toList

/-- Rust `p.is_prefix_of s` / `s.starts_with(p)` (pattern given first). -/
def isPref : Str → Str → Bool
  | [], _ => true
  | _ :: _, [] => false
  | a :: p, b :: s => a == b && isPref p s

/-- Rust `s.starts_with(p)` (pattern given first). -/
def startsWith (p s : Str) : Bool := isPref p s

/-- Rust `s.strip_prefix(p)` (pattern given first). -/
def stripPref (p s : Str) : Option Str :=
  if isPref p s then some (s.drop p.length) else none

/-- Rust `s.contains(sub)` — substring containment (pattern given first). -/
def containsSub (sub : Str) : Str → Bool
  | [] => isPref sub []
  | c :: t => isPref sub (c :: t) || containsSub sub t

/-- Rust `s.split_once(sep)`: split at the FIRST occurrence of `sep`. -/
def splitOnce (sep : Str) : Str → Option (Str × Str)
  | [] => if isPref sep [] then some ([], []) else none
  | c :: t =>
    if isPref sep (c :: t) then some ([], (c :: t).drop sep.length)
    else (splitOnce sep t).map (fun p => (c :: p.1, p.2))

/-- Rust `s.rsplit_once(sep)`: split at the LAST occurrence of `sep`. -/
def rsplitOnce (sep s : Str) : Option (Str × Str) :=
  (splitOnce sep.reverse s.reverse).map (fun p => (p.2.reverse, p.1.reverse))

/-- Rust `Vec::join(sep)` for string pieces. -/
def joinSep (sep : Str) : List Str → Str
  | [] => []
  | [s] => s
  | s :: rest => s ++ sep ++ joinSep sep rest

/-- Strip one trailing carriage return (the `\r` of a `\r\n` line ending). -/
def stripCR (l : Str) : Str := if l.getLast? = some '\r' then l.dropLast else l

/-- Worker for `linesOf`; `acc` is the current line accumulated in reverse. -/
def linesAux (acc : Str) : Str → List Str
  | [] => if acc.isEmpty then [] else [acc.reverse]
  | c :: t => if c = '\n' then stripCR acc.reverse :: linesAux [] t else linesAux (c :: acc) t

/-- Rust `s.lines()`: split on `\n`, strip a `\r` before each `\n`, no
trailing empty line for a trailing line ending. -/
def linesOf (s : Str) : List Str := linesAux [] s

/-- Worker for `splitWhitespace`; `cur` is the current word in reverse. -/
def splitWsAux (cur : Str) : Str → List Str
  | [] => if cur.isEmpty then [] else [cur.reverse]
  | c :: t =>
    if c.isWhitespace then
      if cur.isEmpty then splitWsAux [] t else cur.reverse :: splitWsAux [] t
    else splitWsAux (c :: cur) t

/-- Rust `s.split_whitespace()`: maximal whitespace-free words. -/
def splitWhitespace (s : Str) : List Str := splitWsAux [] s

/-- Rust `s.trim()`. -/
def trim (s : Str) : Str :=
  ((s.dropWhile Char.isWhitespace).reverse.dropWhile Char.isWhitespace).reverse

/-- Rust `s.split("::")`, specialised to the module-path separator. -/
def splitModule : Str → List Str
  | [] => [[]]
  | [c] => [[c]]
  | c₁ :: c₂ :: t =>
    if c₁ = ':' ∧ c₂ = ':' then [] :: splitModule t
    else
      match splitModule (c₂ :: t) with
      | [] => [[c₁]]
      | p :: ps => (c₁ :: p) :: ps

/-- Rust `Vec::pop_if` for the predicate used by `prettify_module`. -/
def popIf (l : List Str) : List Str :=
  match l.getLast? with
  | none => l
  | some x => if x = str "tests" ∨ x = str "test" then l.dropLast else l

/-- `prettify_module` from src/lib.rs: split the module path on `"::"`,
pop one trailing `tests`/`test` segment, `None` if nothing remains. -/
def prettify_module (m : Str) : Option Str :=
  let parts := popIf (splitModule m)
  if parts = [] then none else some (joinSep (str "::") parts)

/-- The character replacement of Rust `input.replace('_', " ")`. -/
def replUnderscore (c : Char) : Char := if c = '_' then ' ' else c

/-- `humanize` from src/lib.rs: replace underscores by spaces, then
collapse whitespace runs by splitting into words and re-joining. -/
def humanize (s : Str) : Str :=
  joinSep (str " ") (splitWhitespace (s.map replUnderscore))

/-- `prettify` from src/lib.rs: keep the prefix before the first `_fn_`
verbatim, humanize the rest. -/
def prettify (s : Str) : Str :=
  match splitOnce (str "_fn_") s with
  | some (fn_name, sentence) => fn_name ++ str " " ++ humanize sentence
  | none => humanize s

/-- `Status` from src/lib.rs. -/
inductive Status
  | Pass
  | Fail
  | Ignored
deriving DecidableEq

/-- `Status::from_str` from src/lib.rs (`anyhow::Result` as `Except`). -/
def Status.fromStr (s : Str) : Except Str Status :=
  if s = str "ok" then Except.ok Status.Pass
  else if s = str "FAILED" then Except.ok Status.Fail
  else if s = str "ignored" then Except.ok Status.Ignored
  else Except.error (str "unhandled test status \"" ++ s ++ str "\"")

/-- `FailureInfo` from src/lib.rs. -/
structure FailureInfo where
  message : Str
  location : Str
deriving DecidableEq

/-- `TestResult` from src/lib.rs. -/
structure TestResult where
  module : Option Str
  test : Str
  name : Str
  status : Status
  failure : Option FailureInfo
deriving DecidableEq

/-- `parse_line` from src/lib.rs. -/
def parse_line (l : Str) : Option TestResult :=
  match stripPref (str "test ") l with
  | none => none
  | some line =>
    if startsWith (str "result") line || containsSub (str "(line ") line then none
    else
      match splitOnce (str " ... ") line with
      | none => none
      | some (test, statusTok) =>
        let mn : Option Str × Str :=
          match rsplitOnce (str "::") test with
          | some (m, n) => (prettify_module m, n)
          | none => (none, test)
        match Status.fromStr statusTok with
        | Except.error _ => none
        | Except.ok st => some ⟨mn.1, test, prettify mn.2, st, none⟩

/-- `HashMap::insert` on the association-list model (later inserts shadow
earlier ones for `hmGet`, matching overwrite semantics). -/
def hmInsert (k : Str) (v : FailureInfo) (m : List (Str × FailureInfo)) :
    List (Str × FailureInfo) := (k, v) :: m

/-- `HashMap::get` on the association-list model. -/
def hmGet (k : Str) (m : List (Str × FailureInfo)) : Option FailureInfo :=
  (m.find? (fun kv => kv.1 == k)).map (fun kv => kv.2)

/-- Loop body of `parse_test_failures`; `rest` in each step is the list of
lines after the current one (`lines[i + 1..]`).  A `thread ... panicked at`
line missing the `thread '` opening or the `' panicked at ` separator makes
the whole function return `none` (the Rust `?` operator). -/
def parse_test_failures_go (acc : List (Str × FailureInfo)) :
    List Str → Option (List (Str × FailureInfo))
  | [] => some acc
  | l :: rest =>
    if startsWith (str "thread") l && containsSub (str "panicked at") l then
      match stripPref (str "thread '") l with
      | none => none
      | some l₁ =>
        match splitOnce (str "' panicked at ") l₁ with
        | none => none
        | some (test, location) =>
          let message := joinSep (str "\n") (rest.takeWhile (fun x => !x.isEmpty))
          parse_test_failures_go (hmInsert test ⟨message, location⟩ acc) rest
    else parse_test_failures_go acc rest

/-- `parse_test_failures` from src/lib.rs. -/
def parse_test_failures (output : Str) : Option (List (Str × FailureInfo)) :=
  parse_test_failures_go [] (linesOf output)

/-- Lexicographic order on strings (Rust `Ord` on `String`, which agrees
with code-point order). -/
def strLt : Str → Str → Bool
  | [], [] => false
  | [], _ :: _ => true
  | _ :: _, [] => false
  | a :: s, b :: t => if a < b then true else if b < a then false else strLt s t

/-- `BTreeMap::insert` on the key-sorted association-list model:
overwrite an equal key, otherwise keep keys strictly ascending. -/
def sortedInsert (k : Str) (v : TestResult) :
    List (Str × TestResult) → List (Str × TestResult)
  | [] => [(k, v)]
  | (k', v') :: rest =>
    if strLt k k' then (k, v) :: (k', v') :: rest
    else if k = k' then (k, v) :: rest
    else (k', v') :: sortedInsert k v rest

/-- If the parsed result failed, attach its failure info by exact-name
lookup (the body of the `if result.status == Status::Fail` in
`parse_test_results`). -/
def attachFailure (failures : List (Str × FailureInfo)) (r : TestResult) : TestResult :=
  if r.status = Status.Fail then { r with failure := hmGet r.test failures } else r

/-- Loop body of `parse_test_results`: classify a line and insert the
result into the key-sorted map. -/
def resultsStep (failures : List (Str × FailureInfo))
    (m : List (Str × TestResult)) (l : Str) : List (Str × TestResult) :=
  match parse_line l with
  | none => m
  | some r0 =>
    let r := attachFailure failures r0
    sortedInsert r.test r m

/-- `parse_test_results` from src/lib.rs: `anyhow::Result` as `Except`;
the `.context("parsing test failures")?` on the `Option` returned by
`parse_test_failures` becomes the error branch. -/
def parse_test_results (test_output : Str) : Except String (List TestResult) :=
  match parse_test_failures test_output with
  | none => Except.error "parsing test failures"
  | some failures =>
    Except.ok (((linesOf test_output).foldl (resultsStep failures) []).map (fun kv => kv.2))

/-- `CargoError` from src/lib.rs. -/
structure CargoError where
  message : Str
  tip : Option Str
deriving DecidableEq

/-- The three stop conditions of the inner loop of `parse_error`. -/
def noDelimiter (l : Str) : Bool :=
  !(containsSub (str "error:") l || containsSub (str "warning:") l ||
    containsSub (str "Usage:") l)

/-- The tip computed by `parse_error` from the lines after the message
line: among the lines before the first delimiter line, the last one whose
trimmed text contains `tip:`, trimmed. -/
def tipOf (rest : List Str) : Option Str :=
  (((rest.takeWhile noDelimiter).filter
      (fun x => containsSub (str "tip:") (trim x))).getLast?).map trim

/-- Scanning loop of `parse_error`: return at the first line containing
`error`. -/
def parse_error_go : List Str → Option CargoError
  | [] => none
  | l :: rest =>
    if containsSub (str "error") l then some ⟨trim l, tipOf rest⟩
    else parse_error_go rest

/-- `parse_error` from src/lib.rs. -/
def parse_error (stderr : Str) : CargoError :=
  match parse_error_go (linesOf stderr) with
  | some e => e
  | none => ⟨trim stderr, none⟩

/-- The chronological list of classified-and-attached results of a text,
before deduplication and sorting (used to state last-wins semantics). -/
def processedResults (t : Str) : List TestResult :=
  match parse_test_failures t with
  | none => []
  | some failures =>
    (linesOf t).filterMap (fun l => (parse_line l).map (attachFailure failures))

/-- `BTreeMap` lookup on the key-sorted association-list model. -/
def keyLookup (k : Str) (m : List (Str × TestResult)) : Option TestResult :=
  (m.find? (fun kv => kv.1 == k)).map (fun kv => kv.2)

/-- A `thread`/`panicked at` line that is missing the `thread '` opening
quote or the `' panicked at ` separator. -/
def MalformedThread (l : Str) : Prop :=
  startsWith (str "thread") l = true ∧
  containsSub (str "panicked at") l = true ∧
  (stripPref (str "thread '") l).bind (splitOnce (str "' panicked at ")) = none

/-- The two outcomes parsed from `"test b ... ok\ntest a ... ok"`, in
identifier order (used as a concrete instance of sortedness). -/
def c4res : List TestResult :=
  [⟨none, str "a", str "a", Status.Pass, none⟩,
   ⟨none, str "b", str "b", Status.Pass, none⟩]

/-- A failing outcome without any matching failure block. -/
def c8res : TestResult := ⟨none, str "a", str "a", Status.Fail, none⟩

/-- A failure map whose only block belongs to an identifier that matches
no result line. -/
def c8fail : List (Str × FailureInfo) := [(str "zzz", ⟨str "msg", str "loc:"⟩)]

/-! ### Basic lemmas about the string primitives -/

theorem isPref_append (p t : Str) : isPref p (p ++ t) = true := by
  induction p with
  | nil => rfl
  | cons a p ih => simp [isPref, ih]

theorem isPref_nil_eq (p : Str) (h : isPref p [] = true) : p = [] := by
  cases p with
  | nil => rfl
  | cons a q => simp [isPref] at h

theorem eq_append_of_isPref : ∀ (p s : Str), isPref p s = true → s = p ++ s.drop p.length := by
  intro p
  induction p with
  | nil => intro s _; simp
  | cons a p ih =>
    intro s h
    cases s with
    | nil => simp [isPref] at h
    | cons b t =>
      simp only [isPref, Bool.and_eq_true, beq_iff_eq] at h
      obtain ⟨rfl, h2⟩ := h
      rw [List.length_cons, List.drop_succ_cons, List.cons_append]
      exact congrArg (List.cons a) (ih t h2)

theorem splitOnce_eq_append (sep : Str) :
    ∀ (s a b : Str), splitOnce sep s = some (a, b) → s = a ++ sep ++ b := by
  intro s
  induction s with
  | nil =>
    intro a b h
    simp only [splitOnce] at h
    split at h
    · obtain ⟨rfl, rfl⟩ : ([] : Str) = a ∧ ([] : Str) = b := by
        simpa using h
      have hsep : sep = [] := isPref_nil_eq sep (by assumption)
      simp [hsep]
    · cases h
  | cons c t ih =>
    intro a b h
    simp only [splitOnce] at h
    split at h
    case isTrue hp =>
      obtain ⟨rfl, rfl⟩ : ([] : Str) = a ∧ (c :: t).drop sep.length = b := by
        simpa using h
      simpa using eq_append_of_isPref sep (c :: t) hp
    case isFalse hp =>
      rw [Option.map_eq_some'] at h
      obtain ⟨⟨a₀, b₀⟩, h₀, heq⟩ := h
      obtain ⟨rfl, rfl⟩ : c :: a₀ = a ∧ b₀ = b := by simpa using heq
      have := ih a₀ b₀ h₀
      rw [List.cons_append, List.cons_append]
      exact congrArg (List.cons c) this

theorem splitOnce_first (sep : Str) :
    ∀ (s a b : Str), splitOnce sep s = some (a, b) →
      ∀ (p q : Str), s = p ++ sep ++ q → a.length ≤ p.length := by
  intro s
  induction s with
  | nil =>
    intro a b h p q _
    simp only [splitOnce] at h
    split at h
    · obtain ⟨rfl, rfl⟩ : ([] : Str) = a ∧ ([] : Str) = b := by simpa using h
      simp
    · cases h
  | cons c t ih =>
    intro a b h p q hpq
    simp only [splitOnce] at h
    split at h
    case isTrue hp =>
      obtain ⟨rfl, -⟩ : ([] : Str) = a ∧ (c :: t).drop sep.length = b := by simpa using h
      simp
    case isFalse hp =>
      rw [Option.map_eq_some'] at h
      obtain ⟨⟨a₀, b₀⟩, h₀, heq⟩ := h
      obtain ⟨rfl, rfl⟩ : c :: a₀ = a ∧ b₀ = b := by simpa using heq
      cases p with
      | nil =>
        exfalso
        apply hp
        simp only [List.nil_append] at hpq
        rw [hpq]
        exact isPref_append sep q
      | cons c' p' =>
        simp only [List.cons_append] at hpq
        have h2 : t = p' ++ sep ++ q := by
          injection hpq with h1 h2
        have := ih a₀ b₀ h₀ p' q h2
        simp only [List.length_cons]
        omega

theorem splitOnce_isSome_of_contains (sep : Str) :
    ∀ s : Str, containsSub sep s = true → (splitOnce sep s).isSome = true := by
  intro s
  induction s with
  | nil =>
    intro h
    simp only [containsSub] at h
    simp [splitOnce, h]
  | cons c t ih =>
    intro h
    simp only [containsSub, Bool.or_eq_true] at h
    rcases h with h | h
    · simp [splitOnce, h]
    · simp only [splitOnce]
      split
      · simp
      · simpa using ih h

theorem splitOnce_fn_eq_none (s : Str) (h : '_' ∉ s) : splitOnce (str "_fn_") s = none := by
  cases hs : splitOnce (str "_fn_") s with
  | none => rfl
  | some p =>
    obtain ⟨a, b⟩ := p
    exfalso
    apply h
    rw [splitOnce_eq_append _ _ _ _ hs]
    have : '_' ∈ str "_fn_" := by decide
    exact List.mem_append.mpr (Or.inl (List.mem_append.mpr (Or.inr this)))

/-! ### Lemmas about the lexicographic string order -/

theorem strLt_irrefl (s : Str) : strLt s s = false := by
  induction s with
  | nil => rfl
  | cons a t ih => simp [strLt, lt_irrefl, ih]

theorem strLt_ne {a b : Str} (h : strLt a b = true) : a ≠ b := by
  intro heq
  subst heq
  rw [strLt_irrefl] at h
  cases h

theorem strLt_trans : ∀ (a b c : Str), strLt a b = true → strLt b c = true → strLt a c = true := by
  intro a
  induction a with
  | nil =>
    intro b c hab hbc
    cases b with
    | nil => simp [strLt] at hab
    | cons y t =>
      cases c with
      | nil => simp [strLt] at hbc
      | cons z u => rfl
  | cons x s ih =>
    intro b c hab hbc
    cases b with
    | nil => simp [strLt] at hab
    | cons y t =>
      cases c with
      | nil => simp [strLt] at hbc
      | cons z u =>
        rcases lt_trichotomy x y with hxy | rfl | hxy
        · rcases lt_trichotomy y z with hyz | rfl | hyz
          · simp [strLt, lt_trans hxy hyz]
          · simp [strLt, hxy]
          · rw [show strLt (y :: t) (z :: u) = false by
              simp [strLt, lt_asymm hyz, hyz]] at hbc
            cases hbc
        · rw [show strLt (x :: s) (x :: t) = strLt s t by simp [strLt, lt_irrefl]] at hab
          rcases lt_trichotomy x z with hxz | rfl | hxz
          · simp [strLt, hxz]
          · rw [show strLt (x :: t) (x :: u) = strLt t u by simp [strLt, lt_irrefl]] at hbc
            simp [strLt, lt_irrefl]
            exact ih t u hab hbc
          · rw [show strLt (x :: t) (z :: u) = false by
              simp [strLt, lt_asymm hxz, hxz]] at hbc
            cases hbc
        · rw [show strLt (x :: s) (y :: t) = false by
            simp [strLt, lt_asymm hxy, hxy]] at hab
          cases hab

theorem strLt_connex : ∀ (a b : Str), a ≠ b → strLt a b = true ∨ strLt b a = true := by
  intro a
  induction a with
  | nil =>
    intro b hne
    cases b with
    | nil => exact absurd rfl hne
    | cons y t => left; rfl
  | cons x s ih =>
    intro b hne
    cases b with
    | nil => right; rfl
    | cons y t =>
      rcases lt_trichotomy x y with hxy | rfl | hxy
      · left; simp [strLt, hxy]
      · have hst : s ≠ t := fun h => hne (by rw [h])
        rcases ih t hst with h | h
        · left; simpa [strLt, lt_irrefl] using h
        · right; simpa [strLt, lt_irrefl] using h
      · right; simp [strLt, hxy]

/-! ### Lemmas about module-path splitting and joining -/

theorem splitModule_ne_nil : ∀ m : Str, splitModule m ≠ [] := by
  intro m
  match m with
  | [] => simp [splitModule]
  | [c] => simp [splitModule]
  | c₁ :: c₂ :: t =>
    simp only [splitModule]
    split
    · simp
    · split <;> simp

theorem joinSep_splitModule : ∀ m : Str, joinSep (str "::") (splitModule m) = m := by
  intro m
  match m with
  | [] => rfl
  | [c] => rfl
  | c₁ :: c₂ :: t =>
    have ih1 := joinSep_splitModule t
    have ih2 := joinSep_splitModule (c₂ :: t)
    simp only [splitModule]
    split
    case isTrue h =>
      obtain ⟨rfl, rfl⟩ := h
      cases hps : splitModule t with
      | nil => exact absurd hps (splitModule_ne_nil t)
      | cons p ps =>
        rw [hps] at ih1
        show joinSep (str "::") ([] :: p :: ps) = ':' :: ':' :: t
        show [] ++ str "::" ++ joinSep (str "::") (p :: ps) = ':' :: ':' :: t
        rw [ih1]
        rfl
    case isFalse h =>
      cases hps : splitModule (c₂ :: t) with
      | nil => exact absurd hps (splitModule_ne_nil (c₂ :: t))
      | cons p ps =>
        rw [hps] at ih2
        cases ps with
        | nil =>
          show joinSep (str "::") [c₁ :: p] = c₁ :: c₂ :: t
          show c₁ :: p = c₁ :: c₂ :: t
          rw [show p = c₂ :: t from ih2]
        | cons q ps' =>
          show (c₁ :: p) ++ str "::" ++ joinSep (str "::") (q :: ps') = c₁ :: c₂ :: t
          have : p ++ str "::" ++ joinSep (str "::") (q :: ps') = c₂ :: t := ih2
          rw [List.cons_append, List.cons_append, this]
  termination_by m => m.length

/-! ### Lemmas about whitespace splitting and `humanize` -/

theorem splitWsAux_allWs :
    ∀ (s cur : Str), (∀ c ∈ s, c.isWhitespace = true) →
      splitWsAux cur s = if cur.isEmpty then [] else [cur.reverse] := by
  intro s
  induction s with
  | nil => intro cur _; rfl
  | cons c t ih =>
    intro cur h
    have hc : c.isWhitespace = true := h c (List.mem_cons_self c t)
    have ht : ∀ c ∈ t, c.isWhitespace = true := fun x hx => h x (List.mem_cons_of_mem c hx)
    have h0 : splitWsAux [] t = [] := by rw [ih [] ht]; rfl
    by_cases hcur : cur.isEmpty = true
    · simp [splitWsAux, hc, hcur, h0]
    · simp [splitWsAux, hc, hcur, h0]

theorem splitWsAux_word :
    ∀ (w cur s : Str), (∀ c ∈ w, c.isWhitespace = false) →
      splitWsAux cur (w ++ s) = splitWsAux (w.reverse ++ cur) s := by
  intro w
  induction w with
  | nil => intro cur s _; rfl
  | cons c w' ih =>
    intro cur s h
    have hc : c.isWhitespace = false := h c (List.mem_cons_self c w')
    have hw' : ∀ x ∈ w', x.isWhitespace = false := fun x hx => h x (List.mem_cons_of_mem c hx)
    show splitWsAux cur (c :: (w' ++ s)) = _
    simp only [splitWsAux, hc, Bool.false_eq_true, if_false]
    rw [ih (c :: cur) s hw']
    rw [List.reverse_cons, List.append_assoc]
    rfl

theorem splitWhitespace_single (s : Str) (h0 : s ≠ []) (h : ∀ c ∈ s, c.isWhitespace = false) :
    splitWhitespace s = [s] := by
  show splitWsAux [] s = [s]
  rw [show s = s ++ [] by simp] at h ⊢
  rw [splitWsAux_word s [] [] (by simpa using h)]
  simp only [List.append_nil, splitWsAux]
  rw [if_neg (by simpa using h0)]
  simp

theorem splitWsAux_words_spec :
    ∀ (s cur : Str), (∀ c ∈ cur, c.isWhitespace = false) →
      ∀ w ∈ splitWsAux cur s, w ≠ [] ∧ ∀ c ∈ w, c.isWhitespace = false ∧ (c ∈ cur ∨ c ∈ s) := by
  intro s
  induction s with
  | nil =>
    intro cur hcur w hw
    simp only [splitWsAux] at hw
    split at hw
    · cases hw
    · rw [List.mem_singleton] at hw
      subst hw
      refine ⟨by simpa using ‹¬cur.isEmpty = true›, fun c hc => ?_⟩
      rw [List.mem_reverse] at hc
      exact ⟨hcur c hc, Or.inl hc⟩
  | cons c t ih =>
    intro cur hcur w hw
    simp only [splitWsAux] at hw
    by_cases hc : c.isWhitespace = true
    · rw [if_pos hc] at hw
      split at hw
      · obtain ⟨h1, h2⟩ := ih [] (by simp) w hw
        exact ⟨h1, fun x hx => ⟨(h2 x hx).1,
          Or.inr (List.mem_cons_of_mem c ((h2 x hx).2.resolve_left (by simp)))⟩⟩
      · rcases List.mem_cons.mp hw with rfl | hw'
        · refine ⟨by simpa using ‹¬cur.isEmpty = true›, fun x hx => ?_⟩
          rw [List.mem_reverse] at hx
          exact ⟨hcur x hx, Or.inl hx⟩
        · obtain ⟨h1, h2⟩ := ih [] (by simp) w hw'
          exact ⟨h1, fun x hx => ⟨(h2 x hx).1,
            Or.inr (List.mem_cons_of_mem c ((h2 x hx).2.resolve_left (by simp)))⟩⟩
    · rw [if_neg hc] at hw
      have hcur' : ∀ x ∈ c :: cur, x.isWhitespace = false := by
        intro x hx
        rcases List.mem_cons.mp hx with rfl | hx'
        · simpa using hc
        · exact hcur x hx'
      obtain ⟨h1, h2⟩ := ih (c :: cur) hcur' w hw
      refine ⟨h1, fun x hx => ⟨(h2 x hx).1, ?_⟩⟩
      rcases (h2 x hx).2 with hx' | hx'
      · rcases List.mem_cons.mp hx' with rfl | hx''
        · exact Or.inr (List.mem_cons_self x t)
        · exact Or.inl hx''
      · exact Or.inr (List.mem_cons_of_mem c hx')

theorem splitWhitespace_joinSep :
    ∀ ws : List Str, (∀ w ∈ ws, w ≠ [] ∧ ∀ c ∈ w, c.isWhitespace = false) →
      splitWhitespace (joinSep (str " ") ws) = ws := by
  intro ws
  induction ws with
  | nil => intro _; rfl
  | cons w ws' ih =>
    intro h
    obtain ⟨hw0, hwc⟩ := h w (List.mem_cons_self w ws')
    have hrest := fun x hx => h x (List.mem_cons_of_mem w hx)
    cases ws' with
    | nil =>
      show splitWhitespace w = [w]
      exact splitWhitespace_single w hw0 hwc
    | cons w' rest =>
      show splitWsAux [] (w ++ str " " ++ joinSep (str " ") (w' :: rest)) = w :: w' :: rest
      rw [List.append_assoc]
      rw [splitWsAux_word w [] _ hwc]
      rw [List.append_nil]
      have hrev : w.reverse.isEmpty = false := by
        rw [Bool.eq_false_iff]
        intro hrv
        exact hw0 (by simpa using List.isEmpty_iff.mp hrv)
      rw [show splitWsAux w.reverse (str " " ++ joinSep (str " ") (w' :: rest))
            = w.reverse.reverse :: splitWsAux [] (joinSep (str " ") (w' :: rest)) from by
        show splitWsAux w.reverse (' ' :: joinSep (str " ") (w' :: rest)) = _
        simp only [splitWsAux]
        rw [if_pos (by decide), if_neg (by simp [hrev])]]
      rw [List.reverse_reverse]
      exact congrArg (List.cons w) (ih hrest)

theorem mem_joinSep {c : Char} (sep : Str) :
    ∀ ls : List Str, c ∈ joinSep sep ls → c ∈ sep ∨ ∃ l ∈ ls, c ∈ l := by
  intro ls
  induction ls with
  | nil => intro h; cases h
  | cons s rest ih =>
    intro h
    cases rest with
    | nil =>
      right
      exact ⟨s, List.mem_cons_self s [], h⟩
    | cons s' rest' =>
      replace h : c ∈ s ++ sep ++ joinSep sep (s' :: rest') := h
      rcases List.mem_append.mp h with h1 | h1
      · rcases List.mem_append.mp h1 with h2 | h2
        · exact Or.inr ⟨s, List.mem_cons_self s _, h2⟩
        · exact Or.inl h2
      · rcases ih h1 with h2 | ⟨l, hl, hcl⟩
        · exact Or.inl h2
        · exact Or.inr ⟨l, List.mem_cons_of_mem s hl, hcl⟩

theorem map_repl_no_underscore (s : Str) : '_' ∉ s.map replUnderscore := by
  intro h
  rw [List.mem_map] at h
  obtain ⟨x, _, hx⟩ := h
  by_cases hx' : x = '_'
  · rw [hx', show replUnderscore '_' = ' ' from rfl] at hx
    cases hx
  · rw [show replUnderscore x = x by simp [replUnderscore, hx']] at hx
    exact hx' hx

theorem map_repl_eq_self (s : Str) (h : '_' ∉ s) : s.map replUnderscore = s := by
  induction s with
  | nil => rfl
  | cons c t ih =>
    have hc : c ≠ '_' := fun hc => h (hc ▸ List.mem_cons_self c t)
    have ht : '_' ∉ t := fun ht => h (List.mem_cons_of_mem c ht)
    simp only [List.map_cons, ih ht]
    rw [show replUnderscore c = c by simp [replUnderscore, hc]]

theorem humanize_no_underscore (s : Str) : '_' ∉ humanize s := by
  intro h
  rcases mem_joinSep (str " ") _ h with h1 | ⟨w, hw, hcw⟩
  · exact absurd h1 (by decide)
  · have := splitWsAux_words_spec (s.map replUnderscore) [] (by intro c hc; cases hc) w hw
    rcases (this.2 '_' hcw).2 with h2 | h2
    · cases h2
    · exact map_repl_no_underscore s h2

theorem humanize_idem (s : Str) : humanize (humanize s) = humanize s := by
  have hws := splitWsAux_words_spec (s.map replUnderscore) [] (by intro c hc; cases hc)
  have hsw : splitWhitespace (humanize s) = splitWhitespace (s.map replUnderscore) :=
    splitWhitespace_joinSep _ (fun w hw =>
      ⟨(hws w hw).1, fun c hc => ((hws w hw).2 c hc).1⟩)
  calc humanize (humanize s)
      = joinSep (str " ") (splitWhitespace ((humanize s).map replUnderscore)) := rfl
    _ = joinSep (str " ") (splitWhitespace (humanize s)) := by
        rw [map_repl_eq_self _ (humanize_no_underscore s)]
    _ = joinSep (str " ") (splitWhitespace (s.map replUnderscore)) := by rw [hsw]
    _ = humanize s := rfl

theorem prettify_of_no_underscore (s : Str) (h : '_' ∉ s) : prettify s = humanize s := by
  simp only [prettify, splitOnce_fn_eq_none s h]

theorem humanize_fixed (s : Str) (h : ∀ c ∈ s, c ≠ '_' ∧ c.isWhitespace = false) :
    humanize s = s := by
  have h1 : s.map replUnderscore = s := map_repl_eq_self s (fun hc => ((h '_' hc).1 rfl))
  cases s with
  | nil => rfl
  | cons c t =>
    show joinSep (str " ") (splitWhitespace ((c :: t).map replUnderscore)) = c :: t
    rw [h1, splitWhitespace_single (c :: t) (by simp) (fun x hx => (h x hx).2)]
    rfl

theorem humanize_all_underscore (s : Str) (h : ∀ c ∈ s, c = '_') : humanize s = [] := by
  have hmap : ∀ c ∈ s.map replUnderscore, c.isWhitespace = true := by
    intro c hc
    rw [List.mem_map] at hc
    obtain ⟨x, hx, rfl⟩ := hc
    rw [h x hx]
    rfl
  show joinSep (str " ") (splitWsAux [] (s.map replUnderscore)) = []
  rw [splitWsAux_allWs _ _ hmap]
  rfl

/-! ### Lemmas about the key-sorted association-list model of `BTreeMap` -/

theorem mem_sortedInsert (k : Str) (v : TestResult) :
    ∀ (m : List (Str × TestResult)) (x : Str × TestResult),
      x ∈ sortedInsert k v m → x = (k, v) ∨ x ∈ m := by
  intro m
  induction m with
  | nil =>
    intro x hx
    simp only [sortedInsert] at hx
    rw [List.mem_singleton] at hx
    exact Or.inl hx
  | cons kv rest ih =>
    intro x hx
    obtain ⟨k', v'⟩ := kv
    simp only [sortedInsert] at hx
    split at hx
    · rcases List.mem_cons.mp hx with rfl | hx'
      · exact Or.inl rfl
      · exact Or.inr hx'
    · split at hx
      · rcases List.mem_cons.mp hx with rfl | hx'
        · exact Or.inl rfl
        · exact Or.inr (List.mem_cons_of_mem _ hx')
      · rcases List.mem_cons.mp hx with rfl | hx'
        · exact Or.inr (List.mem_cons_self _ _)
        · rcases ih x hx' with h | h
          · exact Or.inl h
          · exact Or.inr (List.mem_cons_of_mem _ h)

theorem pairwise_sortedInsert (k : Str) (v : TestResult) :
    ∀ m : List (Str × TestResult),
      m.Pairwise (fun a b => strLt a.1 b.1 = true) →
      (sortedInsert k v m).Pairwise (fun a b => strLt a.1 b.1 = true) := by
  intro m
  induction m with
  | nil =>
    intro _
    simp [sortedInsert]
  | cons kv rest ih =>
    intro hp
    obtain ⟨k', v'⟩ := kv
    rw [List.pairwise_cons] at hp
    obtain ⟨h1, h2⟩ := hp
    simp only [sortedInsert]
    split
    case isTrue hlt =>
      rw [List.pairwise_cons]
      refine ⟨?_, List.pairwise_cons.mpr ⟨h1, h2⟩⟩
      intro x hx
      rcases List.mem_cons.mp hx with rfl | hx'
      · exact hlt
      · exact strLt_trans _ _ _ hlt (h1 x hx')
    case isFalse hnlt =>
      split
      case isTrue heq =>
        subst heq
        exact List.pairwise_cons.mpr ⟨h1, h2⟩
      case isFalse hne =>
        rw [List.pairwise_cons]
        refine ⟨?_, ih h2⟩
        intro x hx
        rcases mem_sortedInsert k v rest x hx with rfl | hx'
        · rcases strLt_connex k k' (fun h => hne h) with h | h
          · exact absurd h hnlt
          · exact h
        · exact h1 x hx'

theorem keyLookup_sortedInsert_self (k : Str) (v : TestResult) :
    ∀ m : List (Str × TestResult), keyLookup k (sortedInsert k v m) = some v := by
  intro m
  induction m with
  | nil => simp [sortedInsert, keyLookup, List.find?]
  | cons kv rest ih =>
    obtain ⟨k', v'⟩ := kv
    simp only [sortedInsert]
    split
    · simp [keyLookup, List.find?]
    · split
      · simp [keyLookup, List.find?]
      case isFalse hne =>
        have : (k' == k) = false := by
          rw [beq_eq_false_iff_ne]
          exact fun h => hne h.symm
        simp only [keyLookup, List.find?, this]
        exact ih

theorem keyLookup_sortedInsert_ne (k k' : Str) (v : TestResult) (hk : k' ≠ k) :
    ∀ m : List (Str × TestResult), keyLookup k' (sortedInsert k v m) = keyLookup k' m := by
  have hkk : (k == k') = false := by
    rw [beq_eq_false_iff_ne]
    exact fun h => hk h.symm
  intro m
  induction m with
  | nil => simp [sortedInsert, keyLookup, List.find?, hkk]
  | cons kv rest ih =>
    obtain ⟨k₀, v₀⟩ := kv
    simp only [sortedInsert]
    split
    · simp only [keyLookup, List.find?, hkk]
    case isFalse h1 =>
      split
      case isTrue h2 =>
        subst h2
        simp only [keyLookup, List.find?, hkk]
      case isFalse h2 =>
        cases h0 : (k₀ == k') with
        | true => simp only [keyLookup, List.find?, h0, Option.map_some']
        | false =>
          simp only [keyLookup, List.find?, h0]
          exact ih

theorem sortedInsert_keys (k : Str) (v : TestResult) (hv : v.test = k) :
    ∀ m : List (Str × TestResult), (∀ kv ∈ m, (kv.2).test = kv.1) →
      ∀ kv ∈ sortedInsert k v m, (kv.2).test = kv.1 := by
  intro m hm kv hkv
  rcases mem_sortedInsert k v m kv hkv with rfl | h
  · exact hv
  · exact hm kv h

theorem find?_some_of_mem {α : Type} (p : α → Bool) :
    ∀ (l : List α) (x : α), x ∈ l → p x = true → ∃ y, l.find? p = some y ∧ p y = true := by
  intro l
  induction l with
  | nil => intro x hx; cases hx
  | cons a l ih =>
    intro x hx hp
    cases hpa : p a with
    | true => exact ⟨a, List.find?_cons_of_pos l hpa, hpa⟩
    | false =>
      rcases List.mem_cons.mp hx with rfl | hx'
      · rw [hpa] at hp; cases hp
      · obtain ⟨y, hy, hpy⟩ := ih x hx' hp
        exact ⟨y, by rw [List.find?_cons_of_neg l (by simp [hpa])]; exact hy, hpy⟩

/-! ### The fold of `parse_test_results` over the classified lines -/

theorem foldl_resultsStep_pairwise (f : List (Str × FailureInfo)) :
    ∀ (lines : List Str) (m : List (Str × TestResult)),
      m.Pairwise (fun a b => strLt a.1 b.1 = true) →
      (lines.foldl (resultsStep f) m).Pairwise (fun a b => strLt a.1 b.1 = true) := by
  intro lines
  induction lines with
  | nil => intro m hm; exact hm
  | cons l rest ih =>
    intro m hm
    rw [List.foldl_cons]
    apply ih
    cases hpl : parse_line l with
    | none => simpa [resultsStep, hpl] using hm
    | some r0 =>
      simp only [resultsStep, hpl]
      exact pairwise_sortedInsert _ _ _ hm

theorem foldl_resultsStep_keys (f : List (Str × FailureInfo)) :
    ∀ (lines : List Str) (m : List (Str × TestResult)),
      (∀ kv ∈ m, (kv.2).test = kv.1) →
      ∀ kv ∈ lines.foldl (resultsStep f) m, (kv.2).test = kv.1 := by
  intro lines
  induction lines with
  | nil => intro m hm; exact hm
  | cons l rest ih =>
    intro m hm
    rw [List.foldl_cons]
    apply ih
    cases hpl : parse_line l with
    | none =>
      rw [show resultsStep f m l = m by simp [resultsStep, hpl]]
      exact hm
    | some r0 =>
      simp only [resultsStep, hpl]
      exact sortedInsert_keys _ _ rfl m hm

theorem foldl_resultsStep_lookup (f : List (Str × FailureInfo)) :
    ∀ (lines : List Str) (m : List (Str × TestResult)) (k : Str),
      keyLookup k (lines.foldl (resultsStep f) m) =
        ((lines.filterMap (fun l => (parse_line l).map (attachFailure f))).reverse.find?
            (fun r => r.test == k)).or (keyLookup k m) := by
  intro lines
  induction lines with
  | nil =>
    intro m k
    simp only [List.foldl_nil, List.filterMap_nil, List.reverse_nil, List.find?_nil,
      Option.none_or]
  | cons l rest ih =>
    intro m k
    rw [List.foldl_cons, List.filterMap_cons]
    cases hpl : parse_line l with
    | none =>
      rw [show resultsStep f m l = m by simp [resultsStep, hpl]]
      simp only [Option.map_none']
      exact ih m k
    | some r0 =>
      rw [show resultsStep f m l
            = sortedInsert (attachFailure f r0).test (attachFailure f r0) m by
        simp [resultsStep, hpl]]
      rw [ih, Option.map_some', List.reverse_cons, List.find?_append]
      cases hA : (rest.filterMap (fun l => (parse_line l).map (attachFailure f))).reverse.find?
          (fun r => r.test == k) with
      | some x => rfl
      | none =>
        simp only [Option.none_or]
        by_cases hk : (attachFailure f r0).test = k
        · subst hk
          rw [keyLookup_sortedInsert_self]
          rw [List.find?_cons_of_pos _ (by simp)]
          rfl
        · rw [keyLookup_sortedInsert_ne _ _ _ (fun h => hk h.symm)]
          rw [List.find?_cons_of_neg _ (by simpa using hk), List.find?_nil]
          simp

theorem mem_map_snd_iff :
    ∀ m : List (Str × TestResult),
      m.Pairwise (fun a b => strLt a.1 b.1 = true) →
      (∀ kv ∈ m, (kv.2).test = kv.1) →
      ∀ r : TestResult, r ∈ m.map (fun kv => kv.2) ↔ keyLookup r.test m = some r := by
  intro m
  induction m with
  | nil =>
    intro _ _ r
    simp [keyLookup]
  | cons kv rest ih =>
    intro hp hk r
    obtain ⟨k₀, v₀⟩ := kv
    rw [List.pairwise_cons] at hp
    obtain ⟨hp1, hp2⟩ := hp
    have hv₀ : v₀.test = k₀ := hk (k₀, v₀) (List.mem_cons_self _ _)
    have hkrest : ∀ kv ∈ rest, (kv.2).test = kv.1 :=
      fun kv h => hk kv (List.mem_cons_of_mem _ h)
    constructor
    · intro hr
      rcases List.mem_cons.mp hr with rfl | hr'
      · simp only [keyLookup]
        rw [List.find?_cons_of_pos _ (by simp [hv₀])]
        rfl
      · have hrmem : keyLookup r.test rest = some r := (ih hp2 hkrest r).mp hr'
        have hne : (k₀ == r.test) = false := by
          rw [beq_eq_false_iff_ne]
          intro heq
          obtain ⟨kv', hkv', hkv'2⟩ := List.mem_map.mp hr'
          have h1 : strLt k₀ kv'.1 = true := hp1 kv' hkv'
          rw [heq, ← hkv'2, hkrest kv' hkv'] at h1
          exact strLt_ne h1 rfl
        simp only [keyLookup]
        rw [List.find?_cons_of_neg _ (by simp [hne])]
        exact hrmem
    · intro hr
      simp only [keyLookup] at hr
      cases h0 : (k₀ == r.test) with
      | true =>
        have hfind : List.find? (fun kv => kv.1 == r.test) ((k₀, v₀) :: rest) = some (k₀, v₀) :=
          List.find?_cons_of_pos rest h0
        rw [hfind] at hr
        simp only [Option.map_some'] at hr
        rw [List.mem_map]
        exact ⟨(k₀, v₀), List.mem_cons_self _ _, Option.some.inj hr⟩
      | false =>
        rw [List.find?_cons_of_neg _ (by simp [h0])] at hr
        exact List.mem_cons_of_mem _ ((ih hp2 hkrest r).mpr hr)

/-- The key specification of `parse_test_results`: the returned sequence is
strictly sorted by identifier, and membership is exactly "being the last
classified-and-attached outcome with that identifier". -/
theorem parse_results_spec (t : Str) (f : List (Str × FailureInfo)) (res : List TestResult)
    (hf : parse_test_failures t = some f) (h : parse_test_results t = Except.ok res) :
    res.Pairwise (fun a b => strLt a.test b.test = true) ∧
    ∀ r : TestResult, r ∈ res ↔
      (((linesOf t).filterMap (fun l => (parse_line l).map (attachFailure f))).reverse.find?
          (fun x => x.test == r.test) = some r) := by
  unfold parse_test_results at h
  rw [hf] at h
  have hres : res = ((linesOf t).foldl (resultsStep f) []).map (fun kv => kv.2) := by
    cases h
    rfl
  subst hres
  have hpw := foldl_resultsStep_pairwise f (linesOf t) [] (by simp)
  have hkeys := foldl_resultsStep_keys f (linesOf t) [] (by simp)
  constructor
  · rw [List.pairwise_map]
    exact List.Pairwise.imp_of_mem
      (fun {a b} ha hb hab => by rw [hkeys a ha, hkeys b hb]; exact hab) hpw
  · intro r
    have hl := foldl_resultsStep_lookup f (linesOf t) [] r.test
    rw [show keyLookup r.test ([] : List (Str × TestResult)) = none from rfl,
      Option.or_none] at hl
    rw [mem_map_snd_iff _ hpw hkeys r, hl]

/-! ### Shape lemmas about `parse_line` and `attachFailure` -/

theorem attachFailure_test (f : List (Str × FailureInfo)) (r : TestResult) :
    (attachFailure f r).test = r.test := by
  unfold attachFailure
  split <;> rfl

theorem attachFailure_status (f : List (Str × FailureInfo)) (r : TestResult) :
    (attachFailure f r).status = r.status := by
  unfold attachFailure
  split <;> rfl

theorem attachFailure_failure (f : List (Str × FailureInfo)) (r : TestResult)
    (hr : r.failure = none) :
    (attachFailure f r).failure =
      if r.status = Status.Fail then hmGet r.test f else none := by
  unfold attachFailure
  split
  case isTrue h => rfl
  case isFalse h => exact hr

theorem parse_line_failure_none (l : Str) (r : TestResult) (h : parse_line l = some r) :
    r.failure = none := by
  unfold parse_line at h
  cases hsp : stripPref (str "test ") l with
  | none => rw [hsp] at h; cases h
  | some line =>
    simp only [hsp] at h
    by_cases hif : (startsWith (str "result") line || containsSub (str "(line ") line) = true
    · rw [if_pos hif] at h; cases h
    · rw [if_neg hif] at h
      cases hso : splitOnce (str " ... ") line with
      | none => simp only [hso] at h; cases h
      | some p =>
        simp only [hso] at h
        obtain ⟨test, statusTok⟩ := p
        cases hst : Status.fromStr statusTok with
        | error e =>
          simp only [hst] at h
          cases h
        | ok st =>
          simp only [hst] at h
          cases h
          rfl

/-! ### The scanning loop of `parse_error` -/

theorem parse_error_go_eq_none :
    ∀ lines : List Str, (∀ l ∈ lines, containsSub (str "error") l = false) →
      parse_error_go lines = none := by
  intro lines
  induction lines with
  | nil => intro _; rfl
  | cons l rest ih =>
    intro h
    have hl : containsSub (str "error") l = false := h l (List.mem_cons_self l rest)
    simp only [parse_error_go, hl, Bool.false_eq_true, if_false]
    exact ih (fun x hx => h x (List.mem_cons_of_mem l hx))

theorem parse_error_go_found :
    ∀ (pre : List Str) (l : Str) (post : List Str),
      (∀ l' ∈ pre, containsSub (str "error") l' = false) →
      containsSub (str "error") l = true →
      parse_error_go (pre ++ l :: post) = some ⟨trim l, tipOf post⟩ := by
  intro pre
  induction pre with
  | nil =>
    intro l post _ hl
    simp only [List.nil_append, parse_error_go, hl, if_true]
  | cons p pre' ih =>
    intro l post hpre hl
    have hp : containsSub (str "error") p = false := hpre p (List.mem_cons_self p pre')
    simp only [List.cons_append, parse_error_go, hp, Bool.false_eq_true, if_false]
    exact ih l post (fun x hx => hpre x (List.mem_cons_of_mem p hx)) hl

/-! ### The abort behaviour of `parse_test_failures` on malformed lines -/

theorem parse_test_failures_go_none :
    ∀ lines : List Str, (∃ l ∈ lines, MalformedThread l) →
      ∀ acc : List (Str × FailureInfo), parse_test_failures_go acc lines = none := by
  intro lines
  induction lines with
  | nil =>
    intro hex acc
    obtain ⟨l, hl, _⟩ := hex
    cases hl
  | cons l₀ rest ih =>
    intro hex acc
    obtain ⟨l, hl, hml⟩ := hex
    rcases List.mem_cons.mp hl with rfl | hl'
    · obtain ⟨h1, h2, h3⟩ := hml
      simp only [parse_test_failures_go]
      rw [if_pos (by rw [h1, h2]; rfl)]
      cases hsp : stripPref (str "thread '") l with
      | none => simp only [hsp]
      | some l₁ =>
        rw [hsp] at h3
        replace h3 : splitOnce (str "' panicked at ") l₁ = none := h3
        simp only [hsp, h3]
    · have ihr := fun acc => ih ⟨l, hl', hml⟩ acc
      simp only [parse_test_failures_go]
      split
      · split
        · rfl
        · split
          · rfl
          · exact ihr _
      · exact ihr _

/-! ### `prettify_module` case analysis -/

theorem prettify_module_strip (m : Str)
    (h : (splitModule m).getLast? = some (str "tests") ∨
         (splitModule m).getLast? = some (str "test")) :
    prettify_module m =
      if (splitModule m).dropLast = [] then none
      else some (joinSep (str "::") ((splitModule m).dropLast)) := by
  have hpop : popIf (splitModule m) = (splitModule m).dropLast := by
    unfold popIf
    rcases h with h | h
    · simp [h]
    · simp [h]
  show (if popIf (splitModule m) = [] then none
        else some (joinSep (str "::") (popIf (splitModule m)))) = _
  rw [hpop]

theorem prettify_module_keep (m : Str)
    (h : ¬((splitModule m).getLast? = some (str "tests") ∨
           (splitModule m).getLast? = some (str "test"))) :
    prettify_module m = some m := by
  have hpop : popIf (splitModule m) = splitModule m := by
    unfold popIf
    cases hgl : (splitModule m).getLast? with
    | none => rfl
    | some x =>
      have hx : ¬(x = str "tests" ∨ x = str "test") := by
        intro hc
        rcases hc with rfl | rfl
        · exact h (Or.inl hgl)
        · exact h (Or.inr hgl)
      simp only [hgl]
      rw [if_neg hx]
  show (if popIf (splitModule m) = [] then none
        else some (joinSep (str "::") (popIf (splitModule m)))) = some m
  rw [hpop, if_neg (splitModule_ne_nil m), joinSep_splitModule]

/-! ## Claim theorems -/

/-- Claim C1, counterexample: a line starting with `thread` and containing
`panicked at` but missing the opening quote makes `parse_test_failures`
return `none` — dropping even the preceding well-formed block — and makes
`parse_test_results` return an error, contradicting the claim that such a
line is skipped without aborting the scan. -/
theorem claim_C1_counterexample :
    parse_test_failures
        (str "thread 'a' panicked at loc:\nmsg\n\nthread panicked at boom") = none ∧
    parse_test_results
        (str "test a ... FAILED\nthread 'a' panicked at loc:\nmsg\n\nthread panicked at boom") =
      Except.error "parsing test failures" :=
  ⟨rfl, rfl⟩

/-- Claim C1, amended: a `thread ... panicked at` line missing the opening
quote or the `' panicked at ` delimiter ABORTS the scan (the Rust `?`
operator propagates the `None`): whenever such a line occurs in the input,
`parse_test_failures` returns `none` and `parse_test_results` returns the
error `parsing test failures` instead of the outcomes. -/
theorem claim_C1_amended (t l : Str) (hl : l ∈ linesOf t) (hm : MalformedThread l) :
    parse_test_failures t = none ∧
    parse_test_results t = Except.error "parsing test failures" := by
  have h1 : parse_test_failures t = none :=
    parse_test_failures_go_none (linesOf t) ⟨l, hl, hm⟩ []
  refine ⟨h1, ?_⟩
  unfold parse_test_results
  rw [h1]

/-- Claim C1, witness: the amended theorem applied to a concrete text
whose single line is a malformed `thread` line. -/
theorem claim_C1_witness :
    parse_test_failures (str "thread panicked at boom") = none ∧
    parse_test_results (str "thread panicked at boom") =
      Except.error "parsing test failures" :=
  claim_C1_amended (str "thread panicked at boom") (str "thread panicked at boom")
    (by decide) ⟨by decide, by decide, by decide⟩

/-- Claim C2: on the six-line document of the claim, `parse_test_results`
returns exactly two outcomes, ordered `bar` before
`foo::tests::does_foo_stuff`; `bar` has status Fail with failure message
`assertion failed` and location `src/lib.rs:10:5:`, and
`foo::tests::does_foo_stuff` has status Pass, module `foo`, display name
`does foo stuff`, and no failure detail. -/
theorem claim_C2 :
    parse_test_results
        (str "test foo::tests::does_foo_stuff ... ok\ntest bar ... FAILED\nthread 'bar' panicked at src/lib.rs:10:5:\nassertion failed\n\ntest result: FAILED. 1 passed; 1 failed") =
      Except.ok
        [⟨none, str "bar", str "bar", Status.Fail,
            some ⟨str "assertion failed", str "src/lib.rs:10:5:"⟩⟩,
         ⟨some (str "foo"), str "foo::tests::does_foo_stuff", str "does foo stuff",
            Status.Pass, none⟩] :=
  rfl

/-- Claim C3, counterexample: for the single line `test foo ... banana`
(well-formed identifier and separator, unknown status token) `parse_line`
returns `none` — exactly the same value it returns for a non-result line —
so no parse failure is surfaced to the caller of the single-line parser;
the error produced by `Status.fromStr` is discarded by the `.ok()?`. -/
theorem claim_C3_counterexample :
    parse_line (str "test foo ... banana") = none ∧
    parse_line (str "   Compiling foo v0.1.0") = none :=
  ⟨rfl, rfl⟩

/-- Claim C3, amended: an unrecognized status token is surfaced only by
`Status.fromStr` itself (which returns an `unhandled test status` error);
`parse_line` on a line with a well-formed identifier/separator but an
unrecognized status token discards that error and returns `none`, and a
whole document containing such a line merely excludes it from the
results. -/
theorem claim_C3_amended :
    (∀ tok : Str, tok ≠ str "ok" → tok ≠ str "FAILED" → tok ≠ str "ignored" →
      Status.fromStr tok =
        Except.error (str "unhandled test status \"" ++ tok ++ str "\"")) ∧
    (∀ l line test tok : Str, stripPref (str "test ") l = some line →
      (startsWith (str "result") line || containsSub (str "(line ") line) = false →
      splitOnce (str " ... ") line = some (test, tok) →
      (∀ st : Status, Status.fromStr tok ≠ Except.ok st) →
      parse_line l = none) ∧
    parse_test_results (str "test a ... ok\ntest foo ... banana") =
      Except.ok [⟨none, str "a", str "a", Status.Pass, none⟩] := by
  refine ⟨?_, ?_, rfl⟩
  · intro tok h1 h2 h3
    unfold Status.fromStr
    rw [if_neg h1, if_neg h2, if_neg h3]
  · intro l line test tok hsp hif hso hst
    unfold parse_line
    simp only [hsp, hif, Bool.false_eq_true, if_false, hso]
    cases hfs : Status.fromStr tok with
    | error e => rfl
    | ok st => exact absurd hfs (hst st)

/-- Claim C3, witness: the amended theorem applied at the token `banana`
and the concrete line `test foo ... banana`. -/
theorem claim_C3_witness :
    Status.fromStr (str "banana") =
      Except.error (str "unhandled test status \"" ++ str "banana" ++ str "\"") ∧
    parse_line (str "test foo ... banana") = none := by
  refine ⟨claim_C3_amended.1 (str "banana") (by decide) (by decide) (by decide), ?_⟩
  refine claim_C3_amended.2.1 (str "test foo ... banana") (str "foo ... banana")
    (str "foo") (str "banana") (by decide) (by decide) (by decide) ?_
  intro st h
  rw [claim_C3_amended.1 (str "banana") (by decide) (by decide) (by decide)] at h
  cases h

/-- Claim C4: for every input text on which `parse_test_results` succeeds,
the returned sequence is strictly sorted in ascending lexicographic order
of the full identifier, each identifier occurs exactly once, and an
outcome belongs to the sequence exactly when it is the outcome of the LAST
classified result line carrying its identifier (later duplicates overwrite
earlier ones). -/
theorem claim_C4 (t : Str) (res : List TestResult)
    (h : parse_test_results t = Except.ok res) :
    res.Pairwise (fun a b => strLt a.test b.test = true) ∧
    (res.map (fun r => r.test)).Nodup ∧
    ∀ r : TestResult, r ∈ res ↔
      ((processedResults t).reverse.find? (fun x => x.test == r.test) = some r) := by
  cases hf : parse_test_failures t with
  | none =>
    exfalso
    unfold parse_test_results at h
    rw [hf] at h
    cases h
  | some f =>
    obtain ⟨hpw, hiff⟩ := parse_results_spec t f res hf h
    refine ⟨hpw, ?_, ?_⟩
    · have hne : res.Pairwise (fun a b => a.test ≠ b.test) :=
        hpw.imp (fun hab => strLt_ne hab)
      exact List.pairwise_map.mpr hne
    · intro r
      have hpr : processedResults t =
          (linesOf t).filterMap (fun l => (parse_line l).map (attachFailure f)) := by
        simp only [processedResults, hf]
      rw [hpr]
      exact hiff r

/-- Claim C4, witness: the sortedness conclusion at the concrete text
`"test b ... ok\ntest a ... ok"` (discovery order b, a; output order a, b). -/
theorem claim_C4_witness :
    c4res.Pairwise (fun a b => strLt a.test b.test = true) :=
  (claim_C4 (str "test b ... ok\ntest a ... ok") c4res rfl).1

/-- Claim C5: `parse_error` always produces a value: with no line
containing `error` the result is the whole text trimmed and no tip;
otherwise the message is the first `error` line trimmed and the tip is the
LAST `tip:` line (trimmed) among the lines strictly after the message line
and strictly before the first later `error:`/`warning:`/`Usage:` line —
nothing at or after such a delimiter line reaches the message or the tip,
and later error blocks are ignored. -/
theorem claim_C5 (t : Str) :
    ((∀ l ∈ linesOf t, containsSub (str "error") l = false) →
      parse_error t = ⟨trim t, none⟩) ∧
    (∀ (pre : List Str) (l : Str) (post : List Str), linesOf t = pre ++ l :: post →
      (∀ l' ∈ pre, containsSub (str "error") l' = false) →
      containsSub (str "error") l = true →
      parse_error t = ⟨trim l, tipOf post⟩) := by
  constructor
  · intro h
    unfold parse_error
    rw [parse_error_go_eq_none (linesOf t) h]
  · intro pre l post hsplit hpre hl
    unfold parse_error
    rw [hsplit, parse_error_go_found pre l post hpre hl]

/-- Claim C5, witness: a concrete diagnostic with a tip line between the
error line and a `Usage:` banner (the later `tip:` line is cut off by the
banner), and a concrete diagnostic with no error line at all. -/
theorem claim_C5_witness :
    parse_error (str "noise\nmy error: bad\n  tip: use this\nUsage: cargo\ntip: late") =
      ⟨str "my error: bad", some (str "tip: use this")⟩ ∧
    parse_error (str "all fine here") = ⟨str "all fine here", none⟩ := by
  constructor
  · exact (claim_C5 _).2 [str "noise"] (str "my error: bad")
      [str "  tip: use this", str "Usage: cargo", str "tip: late"] rfl
      (by decide) (by decide)
  · exact (claim_C5 _).1 (by decide)

/-- Claim C6: the identifier is split on its LAST `::`; at most one
trailing `tests`/`test` segment is stripped from the module portion
(which is otherwise joined back unchanged), and an emptied module portion
yields module `none`; in particular
`test files::test::foo::tests::bar ... ignored` classifies with module
`files::test::foo`, and `test tests::x ... ok` with module `none`. -/
theorem claim_C6 :
    (∀ m : Str, ((splitModule m).getLast? = some (str "tests") ∨
        (splitModule m).getLast? = some (str "test")) →
      prettify_module m =
        if (splitModule m).dropLast = [] then none
        else some (joinSep (str "::") ((splitModule m).dropLast))) ∧
    (∀ m : Str, ¬((splitModule m).getLast? = some (str "tests") ∨
        (splitModule m).getLast? = some (str "test")) →
      prettify_module m = some m) ∧
    (parse_line (str "test files::test::foo::tests::bar ... ignored")).map
        (fun r => r.module) = some (some (str "files::test::foo")) ∧
    (parse_line (str "test tests::x ... ok")).map (fun r => r.module) = some none :=
  ⟨prettify_module_strip, prettify_module_keep, rfl, rfl⟩

/-- Claim C6, witness: one trailing `tests` segment stripped, and a module
without such a segment kept unchanged. -/
theorem claim_C6_witness :
    prettify_module (str "a::tests") = some (str "a") ∧
    prettify_module (str "ab") = some (str "ab") :=
  ⟨claim_C6.1 (str "a::tests") (by decide),
   claim_C6.2.1 (str "ab") (by decide)⟩

/-- Claim C7: an identifier containing `_fn_` splits at the FIRST such
occurrence (the returned prefix is minimal over all decompositions);
`prettify` returns the prefix verbatim, one space, then the humanized
rest; on `prettify_fn__handles_multiple_underscores` the result is
`prettify handles multiple underscores`. -/
theorem claim_C7 :
    (∀ s : Str, containsSub (str "_fn_") s = true →
      (splitOnce (str "_fn_") s).isSome = true) ∧
    (∀ s pre rest : Str, splitOnce (str "_fn_") s = some (pre, rest) →
      prettify s = pre ++ str " " ++ humanize rest ∧
      s = pre ++ str "_fn_" ++ rest ∧
      (∀ p q : Str, s = p ++ str "_fn_" ++ q → pre.length ≤ p.length)) ∧
    prettify (str "prettify_fn__handles_multiple_underscores") =
      str "prettify handles multiple underscores" := by
  refine ⟨splitOnce_isSome_of_contains _, ?_, rfl⟩
  intro s pre rest h
  refine ⟨?_, splitOnce_eq_append _ _ _ _ h,
    fun p q hpq => splitOnce_first _ _ _ _ h p q hpq⟩
  simp only [prettify, h]

/-- Claim C7, witness: the split of `parse_line_fn_does_stuff` at its
`_fn_` separator. -/
theorem claim_C7_witness :
    (splitOnce (str "_fn_") (str "parse_line_fn_does_stuff")).isSome = true ∧
    prettify (str "parse_line_fn_does_stuff") =
      str "parse_line" ++ str " " ++ humanize (str "does_stuff") :=
  ⟨claim_C7.1 _ (by decide),
   (claim_C7.2.1 (str "parse_line_fn_does_stuff") (str "parse_line") (str "does_stuff")
      (by decide)).1⟩

/-- Claim C8: failure-block association is exact-match on the full
identifier: every returned outcome's failure detail is exactly the lookup
of its own identifier in the failure map (for status Fail, `none`
otherwise) — so a block whose identifier matches no result line affects
nothing — every classified result line's identifier appears among the
outcomes even without a matching block, and every outcome stems from a
classified result line. -/
theorem claim_C8 (t : Str) (f : List (Str × FailureInfo)) (res : List TestResult)
    (hf : parse_test_failures t = some f) (h : parse_test_results t = Except.ok res) :
    (∀ r ∈ res, r.failure = if r.status = Status.Fail then hmGet r.test f else none) ∧
    (∀ l ∈ linesOf t, ∀ r0 : TestResult, parse_line l = some r0 →
      ∃ r ∈ res, r.test = r0.test) ∧
    (∀ r ∈ res, ∃ l ∈ linesOf t, ∃ r0 : TestResult,
      parse_line l = some r0 ∧ r0.test = r.test) := by
  obtain ⟨hpw, hiff⟩ := parse_results_spec t f res hf h
  have hmem : ∀ r ∈ res, ∃ l ∈ linesOf t, ∃ r0 : TestResult,
      parse_line l = some r0 ∧ r = attachFailure f r0 := by
    intro r hr
    have hfind := (hiff r).mp hr
    have hrev := List.mem_reverse.mp (List.mem_of_find?_eq_some hfind)
    obtain ⟨l, hl, hfm⟩ := List.mem_filterMap.mp hrev
    obtain ⟨r0, hr0, hat⟩ := Option.map_eq_some'.mp hfm
    exact ⟨l, hl, r0, hr0, hat.symm⟩
  refine ⟨?_, ?_, ?_⟩
  · intro r hr
    obtain ⟨l, hl, r0, hr0, rfl⟩ := hmem r hr
    rw [attachFailure_status, attachFailure_test]
    exact attachFailure_failure f r0 (parse_line_failure_none l r0 hr0)
  · intro l hl r0 hr0
    have hinlist : attachFailure f r0 ∈
        (linesOf t).filterMap (fun l => (parse_line l).map (attachFailure f)) :=
      List.mem_filterMap.mpr ⟨l, hl, by rw [hr0]; rfl⟩
    have hp : ((attachFailure f r0).test == r0.test) = true := by
      rw [attachFailure_test]
      exact beq_self_eq_true _
    obtain ⟨y, hy, hpy⟩ :=
      find?_some_of_mem (fun x => x.test == r0.test) _ _
        (List.mem_reverse.mpr hinlist) hp
    have hyt : y.test = r0.test := beq_iff_eq.mp hpy
    refine ⟨y, ?_, hyt⟩
    apply (hiff y).mpr
    rw [hyt]
    exact hy
  · intro r hr
    obtain ⟨l, hl, r0, hr0, rfl⟩ := hmem r hr
    exact ⟨l, hl, r0, hr0, (attachFailure_test f r0).symm⟩

/-- Claim C8, witness: a failing result line whose identifier matches no
failure block still appears, with no failure detail attached (the only
block in the map belongs to the unmatched identifier `zzz`). -/
theorem claim_C8_witness :
    c8res.failure = if c8res.status = Status.Fail then hmGet c8res.test c8fail else none :=
  (claim_C8 (str "test a ... FAILED\nthread 'zzz' panicked at loc:\nmsg")
      c8fail [c8res] rfl rfl).1 c8res (List.mem_singleton.mpr rfl)

/-- Claim C9, counterexample: the string `" a"` contains no underscore,
yet `prettify` does not return it unchanged — the humanizer collapses and
trims whitespace, so the claimed identity on all underscore-free strings
fails. -/
theorem claim_C9_counterexample :
    '_' ∉ str " a" ∧ prettify (str " a") ≠ str " a" :=
  ⟨by decide, by decide⟩

/-- Claim C9, amended: `prettify` is idempotent on underscore-free
strings, and returns the string unchanged when it contains neither
underscores nor whitespace (identity can fail only through whitespace
collapsing). -/
theorem claim_C9_amended :
    (∀ s : Str, '_' ∉ s → prettify (prettify s) = prettify s) ∧
    (∀ s : Str, (∀ c ∈ s, c ≠ '_' ∧ c.isWhitespace = false) → prettify s = s) := by
  constructor
  · intro s h
    rw [prettify_of_no_underscore s h,
      prettify_of_no_underscore _ (humanize_no_underscore s)]
    exact humanize_idem s
  · intro s h
    have hnu : '_' ∉ s := fun hc => ((h '_' hc).1 rfl)
    rw [prettify_of_no_underscore s hnu]
    exact humanize_fixed s h

/-- Claim C9, witness: idempotence at `no matches` and identity at
`single`. -/
theorem claim_C9_witness :
    prettify (prettify (str "no matches")) = prettify (str "no matches") ∧
    prettify (str "single") = str "single" :=
  ⟨claim_C9_amended.1 (str "no matches") (by decide),
   claim_C9_amended.2 (str "single") (by decide)⟩

/-- Claim C10: when the text after the first `_fn_` separator is empty or
consists only of underscores, `prettify` returns the prefix followed by a
single trailing space — the space inserted between the prefix and the
emptied rest is not trimmed. -/
theorem claim_C10 (s pre rest : Str) (h : splitOnce (str "_fn_") s = some (pre, rest))
    (hrest : ∀ c ∈ rest, c = '_') :
    prettify s = pre ++ [' '] := by
  simp only [prettify, h]
  rw [humanize_all_underscore rest hrest, List.append_nil]
  rfl

/-- Claim C10, witness: `prettify "foo_fn_"` is `"foo "` with its trailing
space. -/
theorem claim_C10_witness : prettify (str "foo_fn_") = str "foo " :=
  claim_C10 (str "foo_fn_") (str "foo") (str "") (by decide) (by decide)

end Testdox
